import Mathlib

/-!
Verification of a finite-frame-theory linear-algebra core.

The source computes, for an analysis operator `T_ana` (an `m × n` matrix whose
rows are the frame vectors), the synthesis operator `T_syn = T_ana.T`, the Gram
matrix `G = T_ana @ T_syn`, the frame operator `S = T_syn @ T_ana`, frame
bounds (extreme eigenvalues of `S`), the canonical dual `S⁻¹ @ T_syn`,
null-space-perturbed and subframe duals, the canonical tight frame via the
inverse square root of `S`, and per-element redundancy diagnostics
`diag(T_ana @ T_dual_syn)`.

All matrix code is embedded over a linear ordered field (instantiated at `ℝ`
for the spectral statements and at `ℚ` for concrete executable checks); the
floating-point tolerance checks of the source become exact statements.
-/

namespace FrameTheory

open Matrix

variable {F : Type*} [LinearOrderedField F]

/-- Synthesis operator: the transpose of the analysis operator
(`T_syn = T_ana.T` in the source). -/
def T_syn {m n : ℕ} (M : Matrix (Fin m) (Fin n) F) : Matrix (Fin n) (Fin m) F :=
  Mᵀ

/-- Gram matrix `G = T_ana @ T_syn`. -/
def Gram {m n : ℕ} (M : Matrix (Fin m) (Fin n) F) : Matrix (Fin m) (Fin m) F :=
  M * T_syn M

/-- Frame operator `S = T_syn @ T_ana`. -/
def S {m n : ℕ} (M : Matrix (Fin m) (Fin n) F) : Matrix (Fin n) (Fin n) F :=
  T_syn M * M

/-- Canonical dual synthesis operator `T_dual_syn = S_inv @ T_syn`. -/
noncomputable def T_dual_syn {m n : ℕ} (M : Matrix (Fin m) (Fin n) F) :
    Matrix (Fin n) (Fin m) F :=
  (S M)⁻¹ * T_syn M

/-- Perturbed dual `T_dual2_syn = T_dual_syn + f_kernel`: the null-space row
vector `δ` is broadcast across all `n` rows of the canonical dual, exactly as
numpy broadcasting does in the source. -/
noncomputable def T_dual2_syn {m n : ℕ} (M : Matrix (Fin m) (Fin n) F)
    (δ : Fin m → F) : Matrix (Fin n) (Fin m) F :=
  T_dual_syn M + Matrix.of fun _ : Fin n => δ

/-- Squared Frobenius norm: the sum of the squares of all entries. -/
def frobSq {a b : ℕ} (A : Matrix (Fin a) (Fin b) F) : F :=
  ∑ i, ∑ j, A i j ^ 2

/-- Frobenius norm (`np.linalg.norm` of a matrix in the source). -/
noncomputable def frobNorm {a b : ℕ} (A : Matrix (Fin a) (Fin b) ℝ) : ℝ :=
  Real.sqrt (frobSq A)

/-- The frame condition: the analysis operator has full column rank, i.e. its
kernel is trivial (rows span `F^n`).  This is the validity invariant every
frame must satisfy (`matrix_rank(T_ana) = n` in the source). -/
def IsFrame {m n : ℕ} (M : Matrix (Fin m) (Fin n) F) : Prop :=
  ∀ x : Fin n → F, M *ᵥ x = 0 → x = 0

/-- The quadratic form of the frame operator is the squared norm of the
analysis coefficients. -/
theorem dotProduct_S_mulVec {m n : ℕ} (M : Matrix (Fin m) (Fin n) F)
    (v : Fin n → F) : v ⬝ᵥ (S M *ᵥ v) = (M *ᵥ v) ⬝ᵥ (M *ᵥ v) := by
  calc v ⬝ᵥ (S M *ᵥ v) = v ⬝ᵥ (Mᵀ *ᵥ (M *ᵥ v)) := by
        rw [show S M = Mᵀ * M from rfl, ← Matrix.mulVec_mulVec]
    _ = (v ᵥ* Mᵀ) ⬝ᵥ (M *ᵥ v) := Matrix.dotProduct_mulVec _ _ _
    _ = (M *ᵥ v) ⬝ᵥ (M *ᵥ v) := by rw [Matrix.vecMul_transpose]

/-- A valid frame has an invertible frame operator: `det S` is a unit. -/
theorem isUnit_det_S {m n : ℕ} (M : Matrix (Fin m) (Fin n) F)
    (hM : IsFrame M) : IsUnit (S M).det := by
  rw [isUnit_iff_ne_zero]
  intro hdet
  obtain ⟨v, hv, hSv⟩ := (Matrix.exists_mulVec_eq_zero_iff).2 hdet
  apply hv
  apply hM
  have h0 : v ⬝ᵥ (S M *ᵥ v) = 0 := by rw [hSv, dotProduct_zero]
  have hsq : (M *ᵥ v) ⬝ᵥ (M *ᵥ v) = 0 := (dotProduct_S_mulVec M v).symm.trans h0
  funext i
  have h1 := Finset.sum_eq_zero_iff_of_nonneg
    (fun j _ => mul_self_nonneg ((M *ᵥ v) j)) |>.1 hsq i (Finset.mem_univ i)
  exact mul_self_eq_zero.1 h1

/-- Duality identity for the canonical dual (shared helper). -/
theorem dual_mul_eq_one {m n : ℕ} (M : Matrix (Fin m) (Fin n) F)
    (hM : IsFrame M) : T_dual_syn M * M = 1 := by
  have hdet := isUnit_det_S M hM
  rw [T_dual_syn, Matrix.mul_assoc]
  rw [show T_syn M * M = S M from rfl]
  exact Matrix.nonsing_inv_mul _ hdet

/-- C1: for every valid frame, the canonical dual `S⁻¹ · Synthesis` satisfies
the duality identity `T_dual_syn · Analysis = Identity_n` (exactly, hence
within any tolerance). -/
theorem canonicalDual_duality {m n : ℕ} (M : Matrix (Fin m) (Fin n) F)
    (hM : IsFrame M) : T_dual_syn M * M = 1 :=
  dual_mul_eq_one M hM

/-- Witness for C1: the concrete frame with rows `(1,0), (0,1), (1,1)`
in `ℚ²` is a valid frame, and the theorem applies to it. -/
theorem canonicalDual_duality_witness :
    IsFrame (Matrix.of ![![(1 : ℚ), 0], ![0, 1], ![1, 1]]) ∧
      T_dual_syn (Matrix.of ![![(1 : ℚ), 0], ![0, 1], ![1, 1]]) *
        Matrix.of ![![(1 : ℚ), 0], ![0, 1], ![1, 1]] = 1 := by
  have hfr : IsFrame (Matrix.of ![![(1 : ℚ), 0], ![0, 1], ![1, 1]]) := by
    intro x hx
    have h0 : (Matrix.of ![![(1 : ℚ), 0], ![0, 1], ![1, 1]] *ᵥ x) 0 = 0 := by
      rw [hx]; rfl
    have h1 : (Matrix.of ![![(1 : ℚ), 0], ![0, 1], ![1, 1]] *ᵥ x) 1 = 0 := by
      rw [hx]; rfl
    simp [Matrix.mulVec, Matrix.dotProduct, Fin.sum_univ_two] at h0 h1
    funext i
    fin_cases i <;> simp [h0, h1]
  exact ⟨hfr, canonicalDual_duality _ hfr⟩

theorem frobSq_nonneg {a b : ℕ} (A : Matrix (Fin a) (Fin b) ℝ) :
    0 ≤ frobSq A :=
  Finset.sum_nonneg fun _ _ => Finset.sum_nonneg fun _ _ => sq_nonneg _

/-- The canonical dual annihilates null vectors of the synthesis operator. -/
theorem T_dual_syn_mulVec_null {m n : ℕ} (M : Matrix (Fin m) (Fin n) F)
    (δ : Fin m → F) (hδ : T_syn M *ᵥ δ = 0) : T_dual_syn M *ᵥ δ = 0 := by
  rw [T_dual_syn, ← Matrix.mulVec_mulVec, hδ, Matrix.mulVec_zero]

/-- Pythagoras for the perturbed dual: the squared Frobenius norm of
`T_dual2_syn` exceeds the canonical one by `n` copies of the squared norm
of the perturbation. -/
theorem frobSq_T_dual2_syn {m n : ℕ} (M : Matrix (Fin m) (Fin n) F)
    (δ : Fin m → F) (hδ : T_syn M *ᵥ δ = 0) :
    frobSq (T_dual2_syn M δ) = frobSq (T_dual_syn M) + (n : F) * ∑ j, δ j ^ 2 := by
  have hzero : ∀ i, ∑ j, T_dual_syn M i j * δ j = 0 := by
    intro i
    have h := congrFun (T_dual_syn_mulVec_null M δ hδ) i
    simpa [Matrix.mulVec, Matrix.dotProduct] using h
  have expand : ∀ i j, (T_dual2_syn M δ) i j ^ 2 =
      T_dual_syn M i j ^ 2 + 2 * (T_dual_syn M i j * δ j) + δ j ^ 2 := by
    intro i j
    simp only [T_dual2_syn, Matrix.add_apply, Matrix.of_apply]
    ring
  have h2 : ∀ i : Fin n, ∑ j, 2 * (T_dual_syn M i j * δ j) = 0 := by
    intro i
    rw [← Finset.mul_sum, hzero i, mul_zero]
  simp only [frobSq, expand, Finset.sum_add_distrib, h2, Finset.sum_const,
    Finset.card_univ, Fintype.card_fin, add_zero, nsmul_eq_mul]

/-- C2: for a valid frame and any null-space vector `δ` of the synthesis
operator, the perturbed dual still satisfies the duality identity, and its
Frobenius norm is at least the canonical dual's, strictly unless `δ = 0`.
(The frame lives in `ℝ^n` with `n ≥ 1`.) -/
theorem nullSpacePerturbedDual_valid {m n : ℕ} (M : Matrix (Fin m) (Fin n) ℝ)
    (hM : IsFrame M) (hn : 0 < n) (δ : Fin m → ℝ) (hδ : T_syn M *ᵥ δ = 0) :
    T_dual2_syn M δ * M = 1 ∧
      frobNorm (T_dual_syn M) ≤ frobNorm (T_dual2_syn M δ) ∧
      (δ ≠ 0 → frobNorm (T_dual_syn M) < frobNorm (T_dual2_syn M δ)) := by
  have hBM : (Matrix.of fun _ : Fin n => δ) * M = 0 := by
    ext i k
    have h := congrFun hδ k
    simp only [T_syn, Matrix.mulVec, Matrix.dotProduct, Matrix.transpose_apply,
      Pi.zero_apply] at h
    simp only [Matrix.mul_apply, Matrix.of_apply, Matrix.zero_apply]
    calc ∑ j, δ j * M j k = ∑ j, M j k * δ j :=
          Finset.sum_congr rfl fun j _ => mul_comm _ _
      _ = 0 := h
  refine ⟨?_, ?_, ?_⟩
  · rw [T_dual2_syn, Matrix.add_mul, hBM, dual_mul_eq_one M hM, add_zero]
  · apply Real.sqrt_le_sqrt
    rw [frobSq_T_dual2_syn M δ hδ]
    have : 0 ≤ (n : ℝ) * ∑ j, δ j ^ 2 := by
      apply mul_nonneg (Nat.cast_nonneg n)
      exact Finset.sum_nonneg fun _ _ => sq_nonneg _
    linarith
  · intro hδ0
    apply Real.sqrt_lt_sqrt (frobSq_nonneg _)
    rw [frobSq_T_dual2_syn M δ hδ]
    obtain ⟨j0, hj0⟩ : ∃ j, δ j ≠ 0 := Function.ne_iff.1 hδ0
    have hpos : 0 < ∑ j, δ j ^ 2 := by
      apply Finset.sum_pos' (fun _ _ => sq_nonneg _)
      exact ⟨j0, Finset.mem_univ j0, by positivity⟩
    have : 0 < (n : ℝ) * ∑ j, δ j ^ 2 := by
      apply mul_pos _ hpos
      exact_mod_cast hn
    linarith

/-- Witness for C2: the frame with rows `(1)` and `(1)` in `ℝ¹` together with
the null vector `δ = (1, -1)` of its synthesis operator. -/
theorem nullSpacePerturbedDual_valid_witness :
    T_dual2_syn (Matrix.of ![![(1 : ℝ)], ![1]]) ![1, -1] *
        Matrix.of ![![(1 : ℝ)], ![1]] = 1 ∧
      frobNorm (T_dual_syn (Matrix.of ![![(1 : ℝ)], ![1]])) ≤
        frobNorm (T_dual2_syn (Matrix.of ![![(1 : ℝ)], ![1]]) ![1, -1]) ∧
      (![1, -1] ≠ (0 : Fin 2 → ℝ) →
        frobNorm (T_dual_syn (Matrix.of ![![(1 : ℝ)], ![1]])) <
          frobNorm (T_dual2_syn (Matrix.of ![![(1 : ℝ)], ![1]]) ![1, -1])) := by
  apply nullSpacePerturbedDual_valid
  · intro x hx
    have h0 := congrFun hx 0
    simp [Matrix.mulVec, Matrix.dotProduct] at h0
    funext i
    fin_cases i
    simpa using h0
  · norm_num
  · funext k
    fin_cases k <;>
      simp [T_syn, Matrix.mulVec, Matrix.dotProduct, Fin.sum_univ_two]

/-- Frame operator of the subframe selected by `idx`
(`S_small = T_syn[:,idx] @ T_ana[idx,:]` in the source). -/
def S_small {m n : ℕ} (M : Matrix (Fin m) (Fin n) F) (idx : Fin n → Fin m) :
    Matrix (Fin n) (Fin n) F :=
  (T_syn M).submatrix id idx * M.submatrix idx id

/-- Canonical dual of the selected subframe
(`T_dual3_small_syn = S_small_inv @ T_syn[:,idx]`). -/
noncomputable def T_dual3_small_syn {m n : ℕ} (M : Matrix (Fin m) (Fin n) F)
    (idx : Fin n → Fin m) : Matrix (Fin n) (Fin n) F :=
  (S_small M idx)⁻¹ * (T_syn M).submatrix id idx

/-- Sparse dual: the subframe dual embedded back into an `n × m` operator with
zero columns outside `idx` (`T_dual3_syn = np.zeros((n,m));
T_dual3_syn[:,idx] = T_dual3_small_syn`). -/
noncomputable def T_dual3_syn {m n : ℕ} (M : Matrix (Fin m) (Fin n) F)
    (idx : Fin n → Fin m) : Matrix (Fin n) (Fin m) F :=
  Matrix.of fun r c => ∑ k, if idx k = c then T_dual3_small_syn M idx r k else 0

/-- The selected-row submatrix, transposed, is the restricted synthesis
operator. -/
theorem submatrix_T_syn_eq {m n : ℕ} (M : Matrix (Fin m) (Fin n) F)
    (idx : Fin n → Fin m) :
    (T_syn M).submatrix id idx = (M.submatrix idx id)ᵀ := by
  ext j k
  simp [T_syn, Matrix.submatrix_apply, Matrix.transpose_apply]

/-- Linear independence of the selected rows makes the subframe frame operator
invertible. -/
theorem isUnit_det_S_small {m n : ℕ} (M : Matrix (Fin m) (Fin n) F)
    (idx : Fin n → Fin m)
    (hli : ∀ c : Fin n → F, (∑ k, c k • M (idx k)) = 0 → c = 0) :
    IsUnit (S_small M idx).det := by
  have hN : (M.submatrix idx id).det ≠ 0 := by
    rw [Ne, ← Matrix.exists_vecMul_eq_zero_iff]
    rintro ⟨c, hc, hvm⟩
    apply hc
    apply hli
    funext j
    have h := congrFun hvm j
    simp only [Matrix.vecMul, Matrix.dotProduct, Matrix.submatrix_apply,
      id_eq, Pi.zero_apply] at h
    simpa [Finset.sum_apply, Pi.smul_apply, smul_eq_mul] using h
  rw [S_small, submatrix_T_syn_eq, Matrix.det_mul, Matrix.det_transpose,
    isUnit_iff_ne_zero]
  exact mul_ne_zero hN hN

/-- C7: the subframe dual built from `n` linearly independent rows of a valid
frame has zero columns outside the chosen index set and satisfies the duality
identity against the full analysis operator. -/
theorem subframeDual_duality {m n : ℕ} (M : Matrix (Fin m) (Fin n) F)
    (hM : IsFrame M) (idx : Fin n → Fin m) (hidx : Function.Injective idx)
    (hli : ∀ c : Fin n → F, (∑ k, c k • M (idx k)) = 0 → c = 0) :
    T_dual3_syn M idx * M = 1 ∧
      ∀ c : Fin m, c ∉ Set.range idx → ∀ r, T_dual3_syn M idx r c = 0 := by
  constructor
  · have hcollapse : T_dual3_syn M idx * M =
        T_dual3_small_syn M idx * M.submatrix idx id := by
      ext r j
      simp only [Matrix.mul_apply, T_dual3_syn, Matrix.of_apply,
        Matrix.submatrix_apply, id_eq, Finset.sum_mul]
      rw [Finset.sum_comm]
      apply Finset.sum_congr rfl
      intro k _
      simp [ite_mul, Finset.sum_ite_eq]
    rw [hcollapse, T_dual3_small_syn, Matrix.mul_assoc, submatrix_T_syn_eq,
      show (M.submatrix idx id)ᵀ * M.submatrix idx id = S_small M idx by
        rw [S_small, submatrix_T_syn_eq]]
    exact Matrix.nonsing_inv_mul _ (isUnit_det_S_small M idx hli)
  · intro c hc r
    simp only [T_dual3_syn, Matrix.of_apply]
    apply Finset.sum_eq_zero
    intro k _
    rw [if_neg]
    intro hkc
    exact hc ⟨k, hkc⟩

/-- Witness for C7: the frame with rows `(1)` and `(2)` in `ℚ¹` and the
subframe consisting of its second row. -/
theorem subframeDual_duality_witness :
    T_dual3_syn (Matrix.of ![![(1 : ℚ)], ![2]]) ![1] *
        Matrix.of ![![(1 : ℚ)], ![2]] = 1 ∧
      ∀ c : Fin 2, c ∉ Set.range (![1] : Fin 1 → Fin 2) →
        ∀ r, T_dual3_syn (Matrix.of ![![(1 : ℚ)], ![2]]) ![1] r c = 0 := by
  apply subframeDual_duality
  · intro x hx
    have h0 := congrFun hx 0
    simp [Matrix.mulVec, Matrix.dotProduct] at h0
    funext i
    fin_cases i
    simpa using h0
  · intro a b _
    exact Subsingleton.elim a b
  · intro c hc
    have h0 := congrFun hc 0
    simp [Fin.sum_univ_one, Matrix.cons_val_one, Pi.smul_apply] at h0
    funext k
    fin_cases k
    simpa using h0

/-- Error kind for the null-space-perturbed dual when no null space exists.
Modelled from the spec: the source notebook has no named error type; the spec
mandates a `NoNullSpaceError` when the null space of the synthesis operator
has dimension 0. -/
inductive DualError : Type where
  | noNullSpace : DualError
  deriving DecidableEq

open Classical in
/-- Modelled from the spec: `nullSpacePerturbedDual` fails with
`NoNullSpaceError` when the null space of the synthesis operator is trivial,
and otherwise returns the perturbed dual `T_dual2_syn` (the computation the
source performs with a null-space basis vector `δ`). -/
noncomputable def nullSpacePerturbedDual {m n : ℕ} (M : Matrix (Fin m) (Fin n) ℝ)
    (δ : Fin m → ℝ) : Except DualError (Matrix (Fin n) (Fin m) ℝ) :=
  if ∀ d : Fin m → ℝ, T_syn M *ᵥ d = 0 → d = 0 then
    Except.error DualError.noNullSpace
  else
    Except.ok (T_dual2_syn M δ)

/-- For a valid frame, the synthesis operator has trivial null space exactly
when `m = n` (rank-nullity). -/
theorem trivialNullSpace_iff {m n : ℕ} (M : Matrix (Fin m) (Fin n) ℝ)
    (hM : IsFrame M) :
    (∀ d : Fin m → ℝ, T_syn M *ᵥ d = 0 → d = 0) ↔ m = n := by
  constructor
  · intro h
    have hTinj : Function.Injective (T_syn M).mulVecLin := by
      rw [← LinearMap.ker_eq_bot]
      exact LinearMap.ker_eq_bot'.2 fun d hd => h d hd
    have hMinj : Function.Injective M.mulVecLin := by
      rw [← LinearMap.ker_eq_bot]
      exact LinearMap.ker_eq_bot'.2 fun x hx => hM x hx
    have h1 : (Module.finrank ℝ (Fin m → ℝ)) ≤ Module.finrank ℝ (Fin n → ℝ) :=
      LinearMap.finrank_le_finrank_of_injective hTinj
    have h2 : (Module.finrank ℝ (Fin n → ℝ)) ≤ Module.finrank ℝ (Fin m → ℝ) :=
      LinearMap.finrank_le_finrank_of_injective hMinj
    simpa [Module.finrank_pi] using le_antisymm h1 h2
  · intro hmn
    subst hmn
    intro d hd
    by_contra hd0
    have hdet : M.det ≠ 0 := by
      rw [Ne, ← Matrix.exists_mulVec_eq_zero_iff]
      rintro ⟨v, hv, hMv⟩
      exact hv (hM v hMv)
    have hdetT : (T_syn M).det ≠ 0 := by
      rw [T_syn, Matrix.det_transpose]
      exact hdet
    exact absurd ((Matrix.exists_mulVec_eq_zero_iff).1 ⟨d, hd0, hd⟩) hdetT

/-- C9: for a valid frame, `nullSpacePerturbedDual` fails with
`NoNullSpaceError` (and produces no other outcome) exactly when the null space
of the synthesis operator is trivial, which happens exactly when `m = n`. -/
theorem nullSpacePerturbedDual_error_iff {m n : ℕ} (M : Matrix (Fin m) (Fin n) ℝ)
    (hM : IsFrame M) (δ : Fin m → ℝ) :
    (nullSpacePerturbedDual M δ = Except.error DualError.noNullSpace ↔ m = n) ∧
      ((∀ d : Fin m → ℝ, T_syn M *ᵥ d = 0 → d = 0) ↔ m = n) := by
  have key := trivialNullSpace_iff M hM
  refine ⟨?_, key⟩
  rw [nullSpacePerturbedDual]
  split_ifs with h
  · simp only [true_iff]
    exact key.1 h
  · constructor
    · intro habs
      exact absurd habs (by simp)
    · intro hmn
      exact absurd (key.2 hmn) h

/-- Witness for C9: the one-element frame `(2)` in `ℝ¹` (so `m = n = 1`):
the operation fails with `NoNullSpaceError`. -/
theorem nullSpacePerturbedDual_error_iff_witness :
    (nullSpacePerturbedDual (Matrix.of ![![(2 : ℝ)]]) ![0] =
        Except.error DualError.noNullSpace ↔ 1 = 1) ∧
      ((∀ d : Fin 1 → ℝ, T_syn (Matrix.of ![![(2 : ℝ)]]) *ᵥ d = 0 → d = 0) ↔
        1 = 1) := by
  apply nullSpacePerturbedDual_error_iff
  intro x hx
  have h0 := congrFun hx 0
  simp [Matrix.mulVec, Matrix.dotProduct] at h0
  funext i
  fin_cases i
  simpa using h0

/-- Redundancy diagnostics `d_i = diag(T_ana @ T_dual_syn)[i]`
(equivalently `⟨f_i, S⁻¹ f_i⟩`). -/
noncomputable def checkCondition {m n : ℕ} (M : Matrix (Fin m) (Fin n) F) :
    Fin m → F :=
  fun i => (M * T_dual_syn M) i i

/-- Per-element redundancy label of the spec. -/
inductive RedundancyLabel : Type where
  | essential : RedundancyLabel
  | removable : RedundancyLabel
  deriving DecidableEq

/-- Redundancy classifier: index `i` is essential when `|d_i - 1| < ε`,
removable otherwise. -/
noncomputable def classify {m n : ℕ} (M : Matrix (Fin m) (Fin n) F) (ε : F) :
    Fin m → RedundancyLabel :=
  fun i =>
    if |checkCondition M i - 1| < ε then RedundancyLabel.essential
    else RedundancyLabel.removable

theorem classify_eq_essential_iff {m n : ℕ} (M : Matrix (Fin m) (Fin n) F)
    (ε : F) (i : Fin m) :
    classify M ε i = RedundancyLabel.essential ↔ |checkCondition M i - 1| < ε := by
  unfold classify
  split_ifs with h <;> simp [h]

theorem classify_eq_removable_iff {m n : ℕ} (M : Matrix (Fin m) (Fin n) F)
    (ε : F) (i : Fin m) :
    classify M ε i = RedundancyLabel.removable ↔ ¬|checkCondition M i - 1| < ε := by
  unfold classify
  split_ifs with h <;> simp [h]

/-- The matrix `P = T_ana @ T_dual_syn` is symmetric. -/
theorem proj_symm {m n : ℕ} (M : Matrix (Fin m) (Fin n) F) :
    (M * T_dual_syn M)ᵀ = M * T_dual_syn M := by
  have hSsymm : (S M)ᵀ = S M := by
    rw [S, T_syn, Matrix.transpose_mul, Matrix.transpose_transpose]
  rw [T_dual_syn, T_syn, Matrix.transpose_mul, Matrix.transpose_mul,
    Matrix.transpose_transpose, Matrix.transpose_nonsing_inv, hSsymm,
    Matrix.mul_assoc]

/-- The matrix `P = T_ana @ T_dual_syn` is idempotent for a valid frame. -/
theorem proj_idem {m n : ℕ} (M : Matrix (Fin m) (Fin n) F) (hM : IsFrame M) :
    (M * T_dual_syn M) * (M * T_dual_syn M) = M * T_dual_syn M := by
  calc (M * T_dual_syn M) * (M * T_dual_syn M)
      = M * ((T_dual_syn M * M) * T_dual_syn M) := by
        simp only [Matrix.mul_assoc]
    _ = M * T_dual_syn M := by rw [dual_mul_eq_one M hM, Matrix.one_mul]

/-- Each diagnostic is a sum of squares of a row of `P`. -/
theorem checkCondition_eq_sum_sq {m n : ℕ} (M : Matrix (Fin m) (Fin n) F)
    (hM : IsFrame M) (i : Fin m) :
    checkCondition M i = ∑ j, ((M * T_dual_syn M) i j) ^ 2 := by
  have h := congrFun (congrFun (proj_idem M hM) i) i
  have hsymm : ∀ j, (M * T_dual_syn M) j i = (M * T_dual_syn M) i j := by
    intro j
    have := congrFun (congrFun (proj_symm M) j) i
    simpa [Matrix.transpose_apply] using this.symm
  calc checkCondition M i = ((M * T_dual_syn M) * (M * T_dual_syn M)) i i :=
        h.symm
    _ = ∑ j, (M * T_dual_syn M) i j * (M * T_dual_syn M) j i :=
        Matrix.mul_apply
    _ = ∑ j, ((M * T_dual_syn M) i j) ^ 2 := by
        apply Finset.sum_congr rfl
        intro j _
        rw [hsymm j, sq]

/-- Diagnostics are nonnegative and at most one. -/
theorem checkCondition_mem_unitInterval {m n : ℕ} (M : Matrix (Fin m) (Fin n) F)
    (hM : IsFrame M) (i : Fin m) :
    0 ≤ checkCondition M i ∧ checkCondition M i ≤ 1 := by
  have hsq := checkCondition_eq_sum_sq M hM i
  have h0 : 0 ≤ checkCondition M i := by
    rw [hsq]
    exact Finset.sum_nonneg fun _ _ => sq_nonneg _
  refine ⟨h0, ?_⟩
  have hself : (checkCondition M i) ^ 2 ≤ checkCondition M i := by
    conv_rhs => rw [hsq]
    have : ((M * T_dual_syn M) i i) ^ 2 ≤ ∑ j, ((M * T_dual_syn M) i j) ^ 2 :=
      Finset.single_le_sum (f := fun j => ((M * T_dual_syn M) i j) ^ 2)
        (fun _ _ => sq_nonneg _) (Finset.mem_univ i)
    exact this
  nlinarith [hself, h0]

/-- The diagnostics sum to the trace of `P`, which is `n`. -/
theorem sum_checkCondition {m n : ℕ} (M : Matrix (Fin m) (Fin n) F)
    (hM : IsFrame M) : ∑ i, checkCondition M i = (n : F) := by
  have htr : Matrix.trace (M * T_dual_syn M) = (n : F) := by
    rw [Matrix.trace_mul_comm, dual_mul_eq_one M hM, Matrix.trace_one,
      Fintype.card_fin]
  calc ∑ i, checkCondition M i = Matrix.trace (M * T_dual_syn M) := by
        simp [Matrix.trace, Matrix.diag, checkCondition]
    _ = (n : F) := htr

/-- C10: for a valid frame the diagnostics `d_i` lie in `[0,1]` and sum to
`n`; consequently, for any tolerance with `(n+1)·ε ≤ 1`, at most `n` indices
are classified essential, and when `m > n` at least one index is removable. -/
theorem redundancy_diagnostics {m n : ℕ} (M : Matrix (Fin m) (Fin n) F)
    (hM : IsFrame M) (ε : F) (hε : ((n : F) + 1) * ε ≤ 1) :
    (∀ i, 0 ≤ checkCondition M i ∧ checkCondition M i ≤ 1) ∧
      (∑ i, checkCondition M i) = (n : F) ∧
      (Finset.univ.filter
          fun i => classify M ε i = RedundancyLabel.essential).card ≤ n ∧
      (n < m → ∃ i, classify M ε i = RedundancyLabel.removable) := by
  have hbox := fun i => checkCondition_mem_unitInterval M hM i
  have hsum := sum_checkCondition M hM
  have h1ε : (0 : F) ≤ 1 - ε := by
    rcases le_or_lt ε 0 with h | h
    · linarith
    · nlinarith [Nat.cast_nonneg (α := F) n]
  have hcard : (Finset.univ.filter
      fun i => classify M ε i = RedundancyLabel.essential).card ≤ n := by
    by_contra hgt
    push_neg at hgt
    set E := Finset.univ.filter
      fun i => classify M ε i = RedundancyLabel.essential with hE
    have hne : E.Nonempty := Finset.card_pos.1 (by omega)
    have hlow : ∀ i ∈ E, 1 - ε < checkCondition M i := by
      intro i hi
      have := (Finset.mem_filter.1 hi).2
      have habs := (classify_eq_essential_iff M ε i).1 this
      have := abs_lt.1 habs
      linarith [this.1]
    have hssum : (E.card : F) * (1 - ε) < ∑ i ∈ E, checkCondition M i := by
      have := Finset.sum_lt_sum_of_nonempty hne hlow
      simpa [Finset.sum_const, nsmul_eq_mul] using this
    have hupper : ∑ i ∈ E, checkCondition M i ≤ (n : F) := by
      rw [← hsum]
      apply Finset.sum_le_sum_of_subset_of_nonneg (Finset.subset_univ E)
      intro i _ _
      exact (hbox i).1
    have hcardF : ((n : F) + 1) ≤ (E.card : F) := by
      have : (n + 1 : ℕ) ≤ E.card := by omega
      exact_mod_cast this
    have hmul : ((n : F) + 1) * (1 - ε) ≤ (E.card : F) * (1 - ε) :=
      mul_le_mul_of_nonneg_right hcardF h1ε
    nlinarith
  refine ⟨hbox, hsum, hcard, ?_⟩
  intro hmn
  by_contra hno
  push_neg at hno
  have hall : Finset.univ.filter
      (fun i => classify M ε i = RedundancyLabel.essential) = Finset.univ := by
    apply Finset.eq_univ_of_forall
    intro i
    rw [Finset.mem_filter]
    refine ⟨Finset.mem_univ i, ?_⟩
    cases hcl : classify M ε i with
    | essential => rfl
    | removable => exact absurd hcl (hno i)
  rw [hall, Finset.card_univ, Fintype.card_fin] at hcard
  omega

/-- Witness for C10: the concrete frame with rows `e₁, e₂, e₃, e₁+e₂`
in `ℚ³` with tolerance `10⁻⁹`. -/
theorem redundancy_diagnostics_witness :
    (∀ i, 0 ≤ checkCondition
        (Matrix.of ![![(1 : ℚ), 0, 0], ![0, 1, 0], ![0, 0, 1], ![1, 1, 0]]) i ∧
      checkCondition
        (Matrix.of ![![(1 : ℚ), 0, 0], ![0, 1, 0], ![0, 0, 1], ![1, 1, 0]]) i ≤ 1) ∧
      (∑ i, checkCondition
        (Matrix.of ![![(1 : ℚ), 0, 0], ![0, 1, 0], ![0, 0, 1], ![1, 1, 0]]) i) =
        (3 : ℚ) ∧
      (Finset.univ.filter
          fun i => classify
            (Matrix.of ![![(1 : ℚ), 0, 0], ![0, 1, 0], ![0, 0, 1], ![1, 1, 0]])
            (1 / 10 ^ 9) i = RedundancyLabel.essential).card ≤ 3 ∧
      (3 < 4 → ∃ i, classify
          (Matrix.of ![![(1 : ℚ), 0, 0], ![0, 1, 0], ![0, 0, 1], ![1, 1, 0]])
          (1 / 10 ^ 9) i = RedundancyLabel.removable) := by
  have h := redundancy_diagnostics
    (Matrix.of ![![(1 : ℚ), 0, 0], ![0, 1, 0], ![0, 0, 1], ![1, 1, 0]])
    (by
      intro x hx
      have h0 := congrFun hx 0
      have h1 := congrFun hx 1
      have h2 := congrFun hx 2
      simp [Matrix.mulVec, Matrix.dotProduct, Fin.sum_univ_three] at h0 h1 h2
      funext i
      fin_cases i <;> simp [h0, h1, h2])
    (1 / 10 ^ 9) (by norm_num)
  simpa using h

/-- Rows-linearly-independent square matrices have nonzero determinant. -/
theorem det_ne_zero_of_rows_li {k : ℕ} (A : Matrix (Fin k) (Fin k) F)
    (hli : ∀ c : Fin k → F, (∑ j, c j • A j) = 0 → c = 0) : A.det ≠ 0 := by
  rw [Ne, ← Matrix.exists_vecMul_eq_zero_iff]
  rintro ⟨c, hc, hvm⟩
  apply hc
  apply hli
  funext j
  have h := congrFun hvm j
  simp only [Matrix.vecMul, Matrix.dotProduct, Pi.zero_apply] at h
  simpa [Finset.sum_apply, Pi.smul_apply, smul_eq_mul] using h

/-- If the coefficient equation `T_ana x = e_i` is solvable, the diagnostic
`d_i` equals one. -/
theorem checkCondition_eq_one_of_solvable {m n : ℕ}
    (M : Matrix (Fin m) (Fin n) F) (hM : IsFrame M) (i : Fin m)
    (x : Fin n → F) (hx : M *ᵥ x = Pi.single i 1) : checkCondition M i = 1 := by
  have hPM : (M * T_dual_syn M) * M = M := by
    rw [Matrix.mul_assoc, dual_mul_eq_one M hM, Matrix.mul_one]
  have h1 : (M * T_dual_syn M) *ᵥ Pi.single i 1 = Pi.single i 1 := by
    rw [← hx, Matrix.mulVec_mulVec, hPM]
  rw [Matrix.mulVec_single_one] at h1
  have h2 := congrFun h1 i
  simpa [checkCondition, Matrix.transpose_apply, Pi.single_apply] using h2

/-- Conversely, if the diagnostic `d_i` equals one, the coefficient equation
`T_ana x = e_i` is solvable (solved by the canonical dual). -/
theorem solvable_of_checkCondition_eq_one {m n : ℕ}
    (M : Matrix (Fin m) (Fin n) F) (hM : IsFrame M) (i : Fin m)
    (hd : checkCondition M i = 1) : ∃ x, M *ᵥ x = Pi.single i 1 := by
  refine ⟨T_dual_syn M *ᵥ Pi.single i 1, ?_⟩
  rw [Matrix.mulVec_mulVec, Matrix.mulVec_single_one]
  funext j
  rw [Matrix.transpose_apply]
  have hii : (M * T_dual_syn M) i i = 1 := hd
  rcases eq_or_ne j i with rfl | hji
  · simpa [Pi.single_apply] using hii
  · have hsq := checkCondition_eq_sum_sq M hM i
    rw [hd] at hsq
    have hsplit : ((M * T_dual_syn M) i i) ^ 2 +
        ∑ k ∈ Finset.univ.erase i, ((M * T_dual_syn M) i k) ^ 2 =
        ∑ j, ((M * T_dual_syn M) i j) ^ 2 :=
      Finset.add_sum_erase Finset.univ
        (fun j => ((M * T_dual_syn M) i j) ^ 2) (Finset.mem_univ i)
    have hzero : ∑ k ∈ Finset.univ.erase i, ((M * T_dual_syn M) i k) ^ 2 = 0 := by
      rw [hii, ← hsq] at hsplit
      nlinarith [hsplit]
    have hj0 : ((M * T_dual_syn M) i j) ^ 2 = 0 :=
      (Finset.sum_eq_zero_iff_of_nonneg fun k _ => sq_nonneg _).1 hzero j
        (Finset.mem_erase.2 ⟨hji, Finset.mem_univ j⟩)
    have hij : (M * T_dual_syn M) i j = 0 := by
      exact sq_eq_zero_iff.1 hj0
    have hsymm := congrFun (congrFun (proj_symm M) i) j
    rw [Matrix.transpose_apply] at hsymm
    rw [hsymm, hij]
    simp [Pi.single_apply, hji]

/-- The dependent-frame scenario of the source: three frame vectors given by
the rows of `A`, plus a fourth vector `a·A₀ + b·A₁`
(`T_ana_dep = np.append(T_ana_2, f_add, axis=0)`). -/
def depFrame (A : Matrix (Fin 3) (Fin 3) F) (a b : F) :
    Matrix (Fin 4) (Fin 3) F :=
  Matrix.of ![A 0, A 1, A 2, a • A 0 + b • A 1]

theorem depFrame_mulVec (A : Matrix (Fin 3) (Fin 3) F) (a b : F)
    (x : Fin 3 → F) :
    depFrame A a b *ᵥ x =
      ![(A *ᵥ x) 0, (A *ᵥ x) 1, (A *ᵥ x) 2,
        a * (A *ᵥ x) 0 + b * (A *ᵥ x) 1] := by
  funext i
  fin_cases i
  · simp [depFrame, Matrix.mulVec, Matrix.dotProduct]
  · simp [depFrame, Matrix.mulVec, Matrix.dotProduct]
  · simp [depFrame, Matrix.mulVec, Matrix.dotProduct]
  · simp only [depFrame, Matrix.mulVec, Matrix.dotProduct, Matrix.of_apply,
      Finset.mul_sum]
    simp [Pi.add_apply, Pi.smul_apply, smul_eq_mul, ← Finset.sum_add_distrib]
    exact Finset.sum_congr rfl fun k _ => by ring

theorem depFrame_isFrame (A : Matrix (Fin 3) (Fin 3) F) (a b : F)
    (hli3 : ∀ c : Fin 3 → F, (∑ j, c j • A j) = 0 → c = 0) :
    IsFrame (depFrame A a b) := by
  have hdet := det_ne_zero_of_rows_li A hli3
  intro x hx
  rw [depFrame_mulVec] at hx
  have hA : A *ᵥ x = 0 := by
    funext k
    fin_cases k
    · simpa using congrFun hx 0
    · simpa using congrFun hx 1
    · simpa using congrFun hx 2
  by_contra hx0
  exact hdet ((Matrix.exists_mulVec_eq_zero_iff).1 ⟨x, hx0, hA⟩)

/-- Amendment of C6: in the dependent-frame scenario (three linearly
independent vectors plus a fourth `a·f₁ + b·f₂` with `a, b ≠ 0`), it is the
THIRD index whose diagnostic equals one (essential), while the diagnostics of
the first, second and fourth indices differ from one (removable for any
tolerance not exceeding their gap to one). -/
theorem classify_dependent_scenario (A : Matrix (Fin 3) (Fin 3) F) (a b : F)
    (hli3 : ∀ c : Fin 3 → F, (∑ j, c j • A j) = 0 → c = 0)
    (ha : a ≠ 0) (hb : b ≠ 0) :
    checkCondition (depFrame A a b) 2 = 1 ∧
      (∀ i ∈ ({0, 1, 3} : Finset (Fin 4)), checkCondition (depFrame A a b) i ≠ 1) ∧
      (∀ ε : F, 0 < ε →
        classify (depFrame A a b) ε 2 = RedundancyLabel.essential) ∧
      (∀ i ∈ ({0, 1, 3} : Finset (Fin 4)), ∀ ε : F,
        ε ≤ |checkCondition (depFrame A a b) i - 1| →
          classify (depFrame A a b) ε i = RedundancyLabel.removable) := by
  have hM := depFrame_isFrame A a b hli3
  have hunit : IsUnit A.det := isUnit_iff_ne_zero.2 (det_ne_zero_of_rows_li A hli3)
  have h2 : checkCondition (depFrame A a b) 2 = 1 := by
    apply checkCondition_eq_one_of_solvable _ hM 2 (A⁻¹ *ᵥ Pi.single 2 1)
    rw [depFrame_mulVec]
    have hAx : A *ᵥ (A⁻¹ *ᵥ Pi.single 2 1) = Pi.single 2 1 := by
      rw [Matrix.mulVec_mulVec, Matrix.mul_nonsing_inv _ hunit,
        Matrix.one_mulVec]
    rw [hAx]
    funext i
    fin_cases i <;> simp [Pi.single_apply]
  have hne : ∀ i ∈ ({0, 1, 3} : Finset (Fin 4)),
      checkCondition (depFrame A a b) i ≠ 1 := by
    intro i hi hd
    obtain ⟨x, hx⟩ := solvable_of_checkCondition_eq_one _ hM i hd
    rw [depFrame_mulVec] at hx
    fin_cases hi
    · have e0 := congrFun hx 0
      have e1 := congrFun hx 1
      have e3 := congrFun hx 3
      simp [Pi.single_apply] at e0 e1 e3
      rw [e0, e1] at e3
      simp at e3
      exact ha e3
    · have e0 := congrFun hx 0
      have e1 := congrFun hx 1
      have e3 := congrFun hx 3
      simp [Pi.single_apply] at e0 e1 e3
      rw [e0, e1] at e3
      simp at e3
      exact hb e3
    · have e0 := congrFun hx 0
      have e1 := congrFun hx 1
      have e3 := congrFun hx 3
      simp [Pi.single_apply] at e0 e1 e3
      rw [e0, e1] at e3
      simp at e3
  refine ⟨h2, hne, ?_, ?_⟩
  · intro ε hε
    rw [classify_eq_essential_iff, h2]
    simpa using hε
  · intro i hi ε hgap
    rw [classify_eq_removable_iff]
    exact not_lt.2 hgap

/-- Witness for the C6 amendment: the identity rows `e₁, e₂, e₃` with fourth
vector `e₁ + e₂` over `ℚ`. -/
theorem classify_dependent_scenario_witness :
    checkCondition (depFrame (1 : Matrix (Fin 3) (Fin 3) ℚ) 1 1) 2 = 1 ∧
      (∀ i ∈ ({0, 1, 3} : Finset (Fin 4)),
        checkCondition (depFrame (1 : Matrix (Fin 3) (Fin 3) ℚ) 1 1) i ≠ 1) ∧
      (∀ ε : ℚ, 0 < ε →
        classify (depFrame (1 : Matrix (Fin 3) (Fin 3) ℚ) 1 1) ε 2 =
          RedundancyLabel.essential) ∧
      (∀ i ∈ ({0, 1, 3} : Finset (Fin 4)), ∀ ε : ℚ,
        ε ≤ |checkCondition (depFrame (1 : Matrix (Fin 3) (Fin 3) ℚ) 1 1) i - 1| →
          classify (depFrame (1 : Matrix (Fin 3) (Fin 3) ℚ) 1 1) ε i =
            RedundancyLabel.removable) := by
  apply classify_dependent_scenario
  · intro c hc
    funext j
    have h := congrFun hc j
    simp only [Finset.sum_apply, Pi.smul_apply, Matrix.one_apply, smul_eq_mul,
      Pi.zero_apply] at h
    simpa [Finset.sum_ite_eq] using h
  · norm_num
  · norm_num

/-- Counterexample to C6 as stated: for the concrete dependent frame with rows
`e₁, e₂, e₃, e₁+e₂` over `ℚ` (three independent vectors plus a fourth that is
a linear combination of the first two) and tolerance `10⁻⁹`, the classifier
labels the FOURTH index removable and the THIRD essential, contradicting the
claim that the fourth is essential and the first three removable. -/
theorem classify_counterexample :
    classify (Matrix.of ![![(1 : ℚ), 0, 0], ![0, 1, 0], ![0, 0, 1], ![1, 1, 0]])
        (1 / 10 ^ 9) 3 = RedundancyLabel.removable ∧
      classify (Matrix.of ![![(1 : ℚ), 0, 0], ![0, 1, 0], ![0, 0, 1], ![1, 1, 0]])
        (1 / 10 ^ 9) 2 = RedundancyLabel.essential := by
  have hSinv : (S (Matrix.of
      ![![(1 : ℚ), 0, 0], ![0, 1, 0], ![0, 0, 1], ![1, 1, 0]]))⁻¹ =
      Matrix.of ![![2/3, -(1/3), 0], ![-(1/3), 2/3, 0], ![0, 0, 1]] := by
    apply Matrix.inv_eq_right_inv
    ext i j
    fin_cases i <;> fin_cases j <;>
      norm_num [S, T_syn, Matrix.mul_apply, Fin.sum_univ_succ,
        Matrix.one_apply, Matrix.transpose_apply, Matrix.vecHead,
        Matrix.vecTail, Function.comp, Fin.ext_iff]
  constructor
  · rw [classify_eq_removable_iff]
    have hd : checkCondition (Matrix.of
        ![![(1 : ℚ), 0, 0], ![0, 1, 0], ![0, 0, 1], ![1, 1, 0]]) 3 = 2/3 := by
      simp only [checkCondition, T_dual_syn, hSinv]
      norm_num [T_syn, Matrix.mul_apply, Fin.sum_univ_succ,
        Matrix.transpose_apply, Matrix.vecHead, Matrix.vecTail, Function.comp]
    rw [hd]
    have habs : |(2 : ℚ)/3 - 1| = 1/3 := by
      rw [abs_of_neg (by norm_num : (2 : ℚ)/3 - 1 < 0)]
      norm_num
    rw [habs]
    norm_num
  · rw [classify_eq_essential_iff]
    have hd : checkCondition (Matrix.of
        ![![(1 : ℚ), 0, 0], ![0, 1, 0], ![0, 0, 1], ![1, 1, 0]]) 2 = 1 := by
      simp only [checkCondition, T_dual_syn, hSinv]
      norm_num [T_syn, Matrix.mul_apply, Fin.sum_univ_succ,
        Matrix.transpose_apply, Matrix.vecHead, Matrix.vecTail, Function.comp]
    rw [hd]
    norm_num

/-- The symmetry check the source performs on the Gram matrix and the frame
operator: EXACT elementwise equality with the transpose
(`np.all(G.T == G)`, `np.all(S.T == S)`). -/
def selfAdjointCheckExact {k : ℕ} [DecidableEq F]
    (A : Matrix (Fin k) (Fin k) F) : Bool :=
  decide (∀ i j, Aᵀ i j = A i j)

/-- Tolerance-based symmetry check, following the spec's words (for the
refinement comparison): elementwise absolute difference between the matrix and
its transpose below `ε`. -/
def selfAdjointCheckTol {k : ℕ} (A : Matrix (Fin k) (Fin k) F) (ε : F) : Bool :=
  decide (∀ i j, |Aᵀ i j - A i j| < ε)

/-- Counterexample to C8 as stated: the two checks are different predicates —
on the concrete matrix `[[0, 10⁻¹²], [0, 0]]` the tolerance-based check (with
`ε = 10⁻⁹`) accepts while the exact check the code performs rejects.  The
source compares with `==`, not with a tolerance. -/
theorem symmetryCheck_counterexample :
    selfAdjointCheckExact (Matrix.of ![![(0 : ℚ), 1/10^12], ![0, 0]]) = false ∧
      selfAdjointCheckTol (Matrix.of ![![(0 : ℚ), 1/10^12], ![0, 0]])
        (1/10^9) = true := by
  constructor
  · rw [selfAdjointCheckExact, decide_eq_false_iff_not]
    intro h
    have h01 := h 0 1
    simp only [Matrix.transpose_apply, Matrix.of_apply] at h01
    norm_num at h01
  · rw [selfAdjointCheckTol, decide_eq_true_eq]
    intro i j
    fin_cases i <;> fin_cases j <;>
      simp only [Matrix.transpose_apply, Matrix.of_apply] <;>
      norm_num [abs_of_nonneg, abs_of_nonpos]

/-- Amendment of C8: the source's symmetry checks on the Gram matrix and the
frame operator use exact elementwise equality; in exact arithmetic they
always succeed, because both operators are exactly symmetric. -/
theorem symmetryCheck_exact_on_operators {m n : ℕ} [DecidableEq F]
    (M : Matrix (Fin m) (Fin n) F) :
    selfAdjointCheckExact (Gram M) = true ∧
      selfAdjointCheckExact (S M) = true := by
  constructor
  · rw [selfAdjointCheckExact, decide_eq_true_eq]
    intro i j
    simp only [Gram, T_syn, Matrix.transpose_apply, Matrix.mul_apply]
    exact Finset.sum_congr rfl fun k _ => by rw [mul_comm]
  · rw [selfAdjointCheckExact, decide_eq_true_eq]
    intro i j
    simp only [S, T_syn, Matrix.transpose_apply, Matrix.mul_apply]
    exact Finset.sum_congr rfl fun k _ => by rw [mul_comm]

/-- Tight synthesis operator `T_syn_tight = S_inv_sqrt @ T_syn`, for a given
square root `R` of `S⁻¹`. -/
noncomputable def T_syn_tight {m n : ℕ} (M : Matrix (Fin m) (Fin n) ℝ)
    (R : Matrix (Fin n) (Fin n) ℝ) : Matrix (Fin n) (Fin m) ℝ :=
  R * T_syn M

/-- Frame operator of the tightened frame
(`S_tight = T_syn_tight @ T_ana_tight` with `T_ana_tight = T_syn_tight.T`). -/
noncomputable def S_tight {m n : ℕ} (M : Matrix (Fin m) (Fin n) ℝ)
    (R : Matrix (Fin n) (Fin n) ℝ) : Matrix (Fin n) (Fin n) ℝ :=
  T_syn_tight M R * (T_syn_tight M R)ᵀ

/-- Any symmetric square root of `S⁻¹` tightens the frame. -/
theorem S_tight_eq_one_of {m n : ℕ} (M : Matrix (Fin m) (Fin n) ℝ)
    (hM : IsFrame M) (R : Matrix (Fin n) (Fin n) ℝ)
    (hRsymm : Rᵀ = R) (hRR : R * R = (S M)⁻¹) : S_tight M R = 1 := by
  have hdetS := isUnit_det_S M hM
  have hdetSinv : IsUnit ((S M)⁻¹).det := by
    rw [Matrix.det_nonsing_inv]
    exact hdetS.ring_inverse
  have hdetR : IsUnit R.det := by
    rw [isUnit_iff_ne_zero]
    intro h0
    have : ((S M)⁻¹).det = 0 := by
      rw [← hRR, Matrix.det_mul, h0, mul_zero]
    exact hdetSinv.ne_zero this
  have hRinv : R = R⁻¹ * (S M)⁻¹ := by
    calc R = R⁻¹ * (R * R) := by
          rw [← Matrix.mul_assoc, Matrix.nonsing_inv_mul _ hdetR,
            Matrix.one_mul]
      _ = R⁻¹ * (S M)⁻¹ := by rw [hRR]
  have hRSR : R * S M * R = 1 := by
    nth_rewrite 1 [hRinv]
    rw [Matrix.mul_assoc (R⁻¹) ((S M)⁻¹) (S M), Matrix.nonsing_inv_mul _ hdetS,
      Matrix.mul_one, Matrix.nonsing_inv_mul _ hdetR]
  rw [S_tight, T_syn_tight, T_syn, Matrix.transpose_mul,
    Matrix.transpose_transpose, hRsymm]
  rw [S, T_syn] at hRSR
  simp only [Matrix.mul_assoc] at hRSR ⊢
  exact hRSR

/-- C5: for a valid frame, multiplying the synthesis operator by the principal
(symmetric positive-semidefinite) square root of `S⁻¹` yields a tight frame:
its frame operator is exactly the identity. -/
theorem tighten_isTight {m n : ℕ} (M : Matrix (Fin m) (Fin n) ℝ)
    (hM : IsFrame M) (hpsd : ((S M)⁻¹).PosSemidef) :
    S_tight M hpsd.sqrt = 1 := by
  apply S_tight_eq_one_of M hM
  · have h := hpsd.posSemidef_sqrt.1
    calc (hpsd.sqrt)ᵀ = (hpsd.sqrt)ᴴ := by
          ext i j
          simp [Matrix.conjTranspose_apply]
      _ = hpsd.sqrt := h
  · exact hpsd.sqrt_mul_self

/-- Witness for C5: the one-element frame `(2)` in `ℝ¹`, whose inverse frame
operator `(1/4)` is positive semidefinite. -/
theorem tighten_isTight_witness :
    ∃ hpsd : ((S (Matrix.of ![![(2 : ℝ)]]))⁻¹).PosSemidef,
      S_tight (Matrix.of ![![(2 : ℝ)]]) hpsd.sqrt = 1 := by
  have hM : IsFrame (Matrix.of ![![(2 : ℝ)]]) := by
    intro x hx
    have h0 := congrFun hx 0
    simp [Matrix.mulVec, Matrix.dotProduct] at h0
    funext i
    fin_cases i
    simpa using h0
  have hSinv : (S (Matrix.of ![![(2 : ℝ)]]))⁻¹ = Matrix.of ![![(1/4 : ℝ)]] := by
    apply Matrix.inv_eq_right_inv
    ext i j
    fin_cases i <;> fin_cases j <;>
      norm_num [S, T_syn, Matrix.mul_apply, Matrix.one_apply]
  have hpsd : ((S (Matrix.of ![![(2 : ℝ)]]))⁻¹).PosSemidef := by
    rw [hSinv]
    constructor
    · ext i j
      fin_cases i <;> fin_cases j <;>
        simp [Matrix.conjTranspose_apply]
    · intro x
      have : star x ⬝ᵥ (Matrix.of ![![(1/4 : ℝ)]] *ᵥ x) = (1/4) * x 0 ^ 2 := by
        simp [Matrix.mulVec, Matrix.dotProduct, star_trivial]
        ring
      rw [this]
      positivity
  exact ⟨hpsd, tighten_isTight _ hM hpsd⟩

/-- The set of eigenvalues of a square real matrix: the values `μ` admitting a
nonzero eigenvector (the source computes them with `np.linalg.eigvals`; for
the symmetric matrices at hand all eigenvalues are real). -/
def eigs {k : ℕ} (A : Matrix (Fin k) (Fin k) ℝ) : Set ℝ :=
  setOf fun μ => ∃ v : Fin k → ℝ, v ≠ 0 ∧ A *ᵥ v = μ • v

/-- Eigenvalues of an invertible matrix are nonzero. -/
theorem eigs_ne_zero {k : ℕ} (A : Matrix (Fin k) (Fin k) ℝ)
    (hdet : IsUnit A.det) {μ : ℝ} (hμ : μ ∈ eigs A) : μ ≠ 0 := by
  obtain ⟨v, hv, hAv⟩ := hμ
  intro h0
  apply hv
  rw [h0, zero_smul] at hAv
  calc v = (A⁻¹ * A) *ᵥ v := by rw [Matrix.nonsing_inv_mul _ hdet, Matrix.one_mulVec]
    _ = A⁻¹ *ᵥ (A *ᵥ v) := (Matrix.mulVec_mulVec _ _ _).symm
    _ = 0 := by rw [hAv, Matrix.mulVec_zero]

/-- Eigenvalue correspondence: `μ⁻¹` is an eigenvalue of `A⁻¹` whenever `μ` is
one of `A`. -/
theorem inv_mem_eigs_inv {k : ℕ} (A : Matrix (Fin k) (Fin k) ℝ)
    (hdet : IsUnit A.det) {μ : ℝ} (hμ : μ ∈ eigs A) : μ⁻¹ ∈ eigs A⁻¹ := by
  obtain ⟨v, hv, hAv⟩ := hμ
  have hμ0 : μ ≠ 0 := eigs_ne_zero A hdet ⟨v, hv, hAv⟩
  refine ⟨v, hv, ?_⟩
  have h1 : A⁻¹ *ᵥ (A *ᵥ v) = v := by
    rw [Matrix.mulVec_mulVec, Matrix.nonsing_inv_mul _ hdet, Matrix.one_mulVec]
  rw [hAv, Matrix.mulVec_smul] at h1
  calc A⁻¹ *ᵥ v = μ⁻¹ • (μ • (A⁻¹ *ᵥ v)) := by
        rw [smul_smul, inv_mul_cancel₀ hμ0, one_smul]
    _ = μ⁻¹ • v := by rw [h1]

/-- The eigenvalues of the inverse matrix are exactly the reciprocals. -/
theorem eigs_inv_eq {k : ℕ} (A : Matrix (Fin k) (Fin k) ℝ)
    (hdet : IsUnit A.det) : eigs A⁻¹ = Inv.inv '' eigs A := by
  ext μ
  constructor
  · intro hμ
    have hdetInv : IsUnit (A⁻¹).det := Matrix.isUnit_nonsing_inv_det A hdet
    have hμ0 : μ ≠ 0 := eigs_ne_zero A⁻¹ hdetInv hμ
    have : μ⁻¹ ∈ eigs A⁻¹⁻¹ := inv_mem_eigs_inv A⁻¹ hdetInv hμ
    rw [Matrix.nonsing_inv_nonsing_inv _ hdet] at this
    exact ⟨μ⁻¹, this, inv_inv μ⟩
  · rintro ⟨ν, hν, rfl⟩
    exact inv_mem_eigs_inv A hdet hν

/-- Eigenvalues of the frame operator of a valid frame are positive. -/
theorem eigs_S_pos {m n : ℕ} (M : Matrix (Fin m) (Fin n) ℝ) (hM : IsFrame M)
    {μ : ℝ} (hμ : μ ∈ eigs (S M)) : 0 < μ := by
  have hμ0 : μ ≠ 0 := eigs_ne_zero _ (isUnit_det_S M hM) hμ
  obtain ⟨v, hv, hSv⟩ := hμ
  have hvv : 0 < v ⬝ᵥ v := by
    rcases lt_or_eq_of_le (Finset.sum_nonneg fun i _ =>
      mul_self_nonneg (v i) : (0 : ℝ) ≤ v ⬝ᵥ v) with h | h
    · exact h
    · exfalso
      apply hv
      funext i
      have := Finset.sum_eq_zero_iff_of_nonneg
        (fun j _ => mul_self_nonneg (v j)) |>.1 h.symm i (Finset.mem_univ i)
      exact mul_self_eq_zero.1 this
  have hquad : μ * (v ⬝ᵥ v) = (M *ᵥ v) ⬝ᵥ (M *ᵥ v) := by
    calc μ * (v ⬝ᵥ v) = v ⬝ᵥ (μ • v) := by
          rw [dotProduct_smul, smul_eq_mul]
      _ = v ⬝ᵥ (S M *ᵥ v) := by rw [hSv]
      _ = (M *ᵥ v) ⬝ᵥ (M *ᵥ v) := dotProduct_S_mulVec M v
  have hq0 : 0 ≤ μ * (v ⬝ᵥ v) := by
    rw [hquad]
    exact Finset.sum_nonneg fun i _ => mul_self_nonneg _
  rcases lt_trichotomy μ 0 with h | h | h
  · nlinarith
  · exact absurd h hμ0
  · exact h

/-- C3: for a valid frame with frame bounds `(A, B)` (the least and greatest
eigenvalues of `S`), the eigenvalues of `S⁻¹` are exactly the reciprocals of
those of `S`, and the frame bounds of `S⁻¹` are `(1/B, 1/A)`. -/
theorem frameBounds_inverse {m n : ℕ} (M : Matrix (Fin m) (Fin n) ℝ)
    (hM : IsFrame M) (A B : ℝ)
    (hA : IsLeast (eigs (S M)) A) (hB : IsGreatest (eigs (S M)) B) :
    eigs ((S M)⁻¹) = Inv.inv '' eigs (S M) ∧
      IsLeast (eigs ((S M)⁻¹)) B⁻¹ ∧ IsGreatest (eigs ((S M)⁻¹)) A⁻¹ := by
  have hdet := isUnit_det_S M hM
  have hset := eigs_inv_eq (S M) hdet
  have hApos : 0 < A := eigs_S_pos M hM hA.1
  have hBpos : 0 < B := eigs_S_pos M hM hB.1
  refine ⟨hset, ⟨?_, ?_⟩, ⟨?_, ?_⟩⟩
  · exact inv_mem_eigs_inv _ hdet hB.1
  · intro x hx
    rw [hset] at hx
    obtain ⟨ν, hν, rfl⟩ := hx
    have hνpos := eigs_S_pos M hM hν
    exact inv_le_inv_of_le hνpos (hB.2 hν)
  · exact inv_mem_eigs_inv _ hdet hA.1
  · intro x hx
    rw [hset] at hx
    obtain ⟨ν, hν, rfl⟩ := hx
    exact inv_le_inv_of_le hApos (hA.2 hν)

/-- The eigenvalues of the concrete frame operator `diag(1, 4)` coming from
the frame with rows `(1,0), (0,2)` are exactly `1` and `4`. -/
theorem eigs_S_concrete :
    eigs (S (Matrix.of ![![(1 : ℝ), 0], ![0, 2]])) = {1, 4} := by
  have hS : S (Matrix.of ![![(1 : ℝ), 0], ![0, 2]]) =
      Matrix.of ![![(1 : ℝ), 0], ![0, 4]] := by
    ext i j
    fin_cases i <;> fin_cases j <;>
      norm_num [S, T_syn, Matrix.mul_apply, Fin.sum_univ_two,
        Matrix.transpose_apply, Matrix.vecHead, Matrix.vecTail, Function.comp]
  rw [hS]
  ext μ
  constructor
  · rintro ⟨v, hv, hAv⟩
    have h0 := congrFun hAv 0
    have h1 := congrFun hAv 1
    simp only [Matrix.mulVec, Matrix.dotProduct, Fin.sum_univ_two,
      Matrix.of_apply, Matrix.cons_val_zero, Matrix.cons_val_one,
      Matrix.head_cons, Pi.smul_apply, smul_eq_mul, one_mul, zero_mul,
      mul_zero, add_zero, zero_add] at h0 h1
    rcases eq_or_ne (v 1) 0 with hv1 | hv1
    · have hv0 : v 0 ≠ 0 := by
        intro hz
        apply hv
        funext i
        fin_cases i <;> simp [hz, hv1]
      have hfac : (1 - μ) * v 0 = 0 := by
        rw [sub_mul, one_mul, sub_eq_zero]
        exact h0
      rcases mul_eq_zero.1 hfac with hμ | hz
      · have hμ1 : μ = 1 := by linarith
        simp [hμ1]
      · exact absurd hz hv0
    · have hfac : (4 - μ) * v 1 = 0 := by
        rw [sub_mul, sub_eq_zero]
        exact h1
      rcases mul_eq_zero.1 hfac with hμ | hz
      · have hμ4 : μ = 4 := by linarith
        simp [hμ4]
      · exact absurd hz hv1
  · intro hμ
    rcases hμ with rfl | hμ
    · refine ⟨![1, 0], ?_, ?_⟩
      · intro heq
        have := congrFun heq 0
        norm_num at this
      · funext i
        fin_cases i <;>
          simp [Matrix.mulVec, Matrix.dotProduct, Fin.sum_univ_two]
    · rw [Set.mem_singleton_iff] at hμ
      subst hμ
      refine ⟨![0, 1], ?_, ?_⟩
      · intro heq
        have := congrFun heq 1
        norm_num at this
      · funext i
        fin_cases i <;>
          simp [Matrix.mulVec, Matrix.dotProduct, Fin.sum_univ_two]

/-- Witness for C3: the frame with rows `(1,0), (0,2)` has frame operator
`diag(1,4)` with bounds `(1, 4)`; the theorem yields the bounds `(1/4, 1)` of
its inverse. -/
theorem frameBounds_inverse_witness :
    eigs ((S (Matrix.of ![![(1 : ℝ), 0], ![0, 2]]))⁻¹) =
        Inv.inv '' eigs (S (Matrix.of ![![(1 : ℝ), 0], ![0, 2]])) ∧
      IsLeast (eigs ((S (Matrix.of ![![(1 : ℝ), 0], ![0, 2]]))⁻¹)) (4 : ℝ)⁻¹ ∧
      IsGreatest (eigs ((S (Matrix.of ![![(1 : ℝ), 0], ![0, 2]]))⁻¹)) (1 : ℝ)⁻¹ := by
  apply frameBounds_inverse
  · intro x hx
    have h0 := congrFun hx 0
    have h1 := congrFun hx 1
    simp [Matrix.mulVec, Matrix.dotProduct, Fin.sum_univ_two] at h0 h1
    funext i
    fin_cases i <;> simp [h0, h1]
  · rw [eigs_S_concrete]
    constructor
    · simp
    · intro x hx
      rcases hx with rfl | hx
      · norm_num
      · rw [Set.mem_singleton_iff] at hx
        subst hx
        norm_num
  · rw [eigs_S_concrete]
    constructor
    · simp
    · intro x hx
      rcases hx with rfl | hx
      · norm_num
      · rw [Set.mem_singleton_iff] at hx
        subst hx
        norm_num

/-- Eigenspace of a square real matrix at the value `μ`. -/
noncomputable def eigSpace {k : ℕ} (A : Matrix (Fin k) (Fin k) ℝ) (μ : ℝ) :
    Submodule ℝ (Fin k → ℝ) :=
  LinearMap.ker (A.mulVecLin - μ • LinearMap.id)

theorem mem_eigSpace_iff {k : ℕ} (A : Matrix (Fin k) (Fin k) ℝ) (μ : ℝ)
    (v : Fin k → ℝ) : v ∈ eigSpace A μ ↔ A *ᵥ v = μ • v := by
  simp [eigSpace, LinearMap.mem_ker, LinearMap.sub_apply,
    Matrix.mulVecLin_apply, sub_eq_zero]

theorem eigSpace_zero {k : ℕ} (A : Matrix (Fin k) (Fin k) ℝ) :
    eigSpace A 0 = LinearMap.ker A.mulVecLin := by
  ext v
  simp [mem_eigSpace_iff, LinearMap.mem_ker, Matrix.mulVecLin_apply]

/-- A valid frame's analysis operator has full column rank `n`. -/
theorem rank_eq_of_isFrame {m n : ℕ} (M : Matrix (Fin m) (Fin n) ℝ)
    (hM : IsFrame M) : M.rank = n := by
  have hinj : Function.Injective M.mulVecLin := by
    rw [← LinearMap.ker_eq_bot]
    exact LinearMap.ker_eq_bot'.2 fun x hx => hM x hx
  rw [Matrix.rank, LinearMap.finrank_range_of_inj hinj]
  simp [Module.finrank_pi]

/-- C4: for a valid frame the Gram matrix is symmetric, has rank exactly `n`
(so its zero eigenspace has dimension `m - n`: exactly `n` eigenvalues are
nonzero, counted with multiplicity), and each nonzero eigenvalue has the same
multiplicity for the Gram matrix as for the frame operator (the nonzero
spectra agree as multisets). -/
theorem gram_spectrum {m n : ℕ} (M : Matrix (Fin m) (Fin n) ℝ)
    (hM : IsFrame M) :
    (Gram M)ᵀ = Gram M ∧
      (Gram M).rank = n ∧
      Module.finrank ℝ (eigSpace (Gram M) 0) = m - n ∧
      ∀ μ : ℝ, μ ≠ 0 →
        Module.finrank ℝ (eigSpace (Gram M) μ) =
          Module.finrank ℝ (eigSpace (S M) μ) := by
  have hGsymm : (Gram M)ᵀ = Gram M := by
    rw [Gram, T_syn, Matrix.transpose_mul, Matrix.transpose_transpose]
  have hGrank : (Gram M).rank = n := by
    rw [show Gram M = M * Mᵀ from rfl, Matrix.rank_self_mul_transpose,
      rank_eq_of_isFrame M hM]
  refine ⟨hGsymm, hGrank, ?_, ?_⟩
  · rw [eigSpace_zero]
    have hsum := LinearMap.finrank_range_add_finrank_ker (Gram M).mulVecLin
    have hr : Module.finrank ℝ (LinearMap.range (Gram M).mulVecLin) = n := by
      rw [show Module.finrank ℝ (LinearMap.range (Gram M).mulVecLin) =
        (Gram M).rank from rfl]
      exact hGrank
    rw [hr] at hsum
    simp only [Module.finrank_pi, Fintype.card_fin] at hsum
    omega
  · intro μ hμ
    have hmem1 : ∀ v ∈ eigSpace (Gram M) μ,
        (T_syn M).mulVecLin v ∈ eigSpace (S M) μ := by
      intro v hv
      rw [mem_eigSpace_iff] at hv
      rw [Matrix.mulVecLin_apply, mem_eigSpace_iff]
      calc S M *ᵥ (T_syn M *ᵥ v) = (S M * T_syn M) *ᵥ v :=
            Matrix.mulVec_mulVec _ _ _
        _ = (T_syn M * Gram M) *ᵥ v := by
            rw [S, Gram, Matrix.mul_assoc]
        _ = T_syn M *ᵥ (Gram M *ᵥ v) := (Matrix.mulVec_mulVec _ _ _).symm
        _ = T_syn M *ᵥ (μ • v) := by rw [hv]
        _ = μ • (T_syn M *ᵥ v) := Matrix.mulVec_smul _ _ _
    have hmem2 : ∀ w ∈ eigSpace (S M) μ,
        (μ⁻¹ • M.mulVecLin) w ∈ eigSpace (Gram M) μ := by
      intro w hw
      rw [mem_eigSpace_iff] at hw
      rw [LinearMap.smul_apply, Matrix.mulVecLin_apply, mem_eigSpace_iff]
      rw [Matrix.mulVec_smul]
      calc μ⁻¹ • (Gram M *ᵥ (M *ᵥ w)) = μ⁻¹ • ((Gram M * M) *ᵥ w) := by
            rw [Matrix.mulVec_mulVec]
        _ = μ⁻¹ • ((M * S M) *ᵥ w) := by
            rw [Gram, S, Matrix.mul_assoc]
        _ = μ⁻¹ • (M *ᵥ (S M *ᵥ w)) := by rw [← Matrix.mulVec_mulVec]
        _ = μ⁻¹ • (M *ᵥ (μ • w)) := by rw [hw]
        _ = μ • μ⁻¹ • (M *ᵥ w) := by
            rw [Matrix.mulVec_smul, smul_comm]
    have hφinj : Function.Injective (((T_syn M).mulVecLin).restrict hmem1) := by
      rw [← LinearMap.ker_eq_bot]
      apply LinearMap.ker_eq_bot'.2
      rintro ⟨v, hv⟩ h0
      have hval : T_syn M *ᵥ v = 0 := by
        have := congrArg Subtype.val h0
        simpa [LinearMap.restrict_apply, Matrix.mulVecLin_apply] using this
      apply Subtype.ext
      show v = 0
      rw [mem_eigSpace_iff] at hv
      have hz : Gram M *ᵥ v = 0 := by
        rw [Gram, ← Matrix.mulVec_mulVec, hval, Matrix.mulVec_zero]
      rw [hv] at hz
      exact (smul_eq_zero.1 hz).resolve_left hμ
    have hψinj : Function.Injective ((μ⁻¹ • M.mulVecLin).restrict hmem2) := by
      rw [← LinearMap.ker_eq_bot]
      apply LinearMap.ker_eq_bot'.2
      rintro ⟨w, hw⟩ h0
      have hval : μ⁻¹ • (M *ᵥ w) = 0 := by
        have := congrArg Subtype.val h0
        simpa [LinearMap.restrict_apply, Matrix.mulVecLin_apply] using this
      have hMw : M *ᵥ w = 0 :=
        (smul_eq_zero.1 hval).resolve_left (inv_ne_zero hμ)
      apply Subtype.ext
      show w = 0
      rw [mem_eigSpace_iff] at hw
      have hz : S M *ᵥ w = 0 := by
        rw [S, ← Matrix.mulVec_mulVec, hMw, Matrix.mulVec_zero]
      rw [hw] at hz
      exact (smul_eq_zero.1 hz).resolve_left hμ
    exact le_antisymm (LinearMap.finrank_le_finrank_of_injective hφinj)
      (LinearMap.finrank_le_finrank_of_injective hψinj)

/-- Witness for C4: the frame with rows `(1,0), (0,1), (0,0)` in `ℝ²`
(`m = 3 > n = 2`). -/
theorem gram_spectrum_witness :
    (Gram (Matrix.of ![![(1 : ℝ), 0], ![0, 1], ![0, 0]]))ᵀ =
        Gram (Matrix.of ![![(1 : ℝ), 0], ![0, 1], ![0, 0]]) ∧
      (Gram (Matrix.of ![![(1 : ℝ), 0], ![0, 1], ![0, 0]])).rank = 2 ∧
      Module.finrank ℝ
          (eigSpace (Gram (Matrix.of ![![(1 : ℝ), 0], ![0, 1], ![0, 0]])) 0) =
        3 - 2 ∧
      ∀ μ : ℝ, μ ≠ 0 →
        Module.finrank ℝ
            (eigSpace (Gram (Matrix.of ![![(1 : ℝ), 0], ![0, 1], ![0, 0]])) μ) =
          Module.finrank ℝ
            (eigSpace (S (Matrix.of ![![(1 : ℝ), 0], ![0, 1], ![0, 0]])) μ) := by
  apply gram_spectrum
  intro x hx
  have h0 := congrFun hx 0
  have h1 := congrFun hx 1
  simp [Matrix.mulVec, Matrix.dotProduct, Fin.sum_univ_two] at h0 h1
  funext i
  fin_cases i <;> simp [h0, h1]

end FrameTheory
